import Mathlib

/-!
Verification of the append-only log storage engine of `my-database`
(`src/mydb/storage/logger.py`), as a shallow embedding: byte strings are
lists of naturals, the log file is the list of its bytes, streams are a
byte list together with a read position, and the in-memory index is an
association list from key bytes to offsets.
-/

namespace MyDB

/-- A byte string (Python `bytes`): a list of byte values. -/
abbrev Bytes := List Nat

/-- Little-endian encoding of `n` into `w` bytes, as `struct.pack` lays out
an unsigned integer field (`w = 8` for format character `Q`). -/
def leBytes : Nat → Nat → Bytes
  | 0, _ => []
  | w + 1, n => n % 256 :: leBytes w (n / 256)

/-- Little-endian decoding of a byte list, as `struct.unpack` reads an
unsigned integer field. -/
def deBytes : Bytes → Nat
  | [] => 0
  | b :: bs => b + 256 * deBytes bs

/-- `AppendOnlyLogOperation`: `SET = 0`, `DELETE = 1` (an `IntEnum`). -/
inductive AppendOnlyLogOperation
  | SET
  | DELETE
deriving DecidableEq

/-- The integer value of the operation tag. -/
def AppendOnlyLogOperation.value : AppendOnlyLogOperation → Nat
  | .SET => 0
  | .DELETE => 1

/-- `AppendOnlyLogHeader`: `operation`, `key_size`, `value_size`. -/
structure AppendOnlyLogHeader where
  operation : AppendOnlyLogOperation
  key_size : Nat
  value_size : Nat
deriving DecidableEq

/-- `AppendOnlyLogHeader.STRUCT = Struct("BQQ")` uses native byte order and
native alignment (the format string has no `<` prefix).  On the little-endian
64-bit platforms the program runs on this is: `u8` at offset 0, seven zero
padding bytes at offsets 1-7, `u64` little-endian at offset 8, `u64`
little-endian at offset 16, so `STRUCT.size = calcsize("BQQ") = 24`. -/
def STRUCT_size : Nat := 24

/-- `header.payload_size = key_size + value_size`. -/
def AppendOnlyLogHeader.payload_size (h : AppendOnlyLogHeader) : Nat :=
  h.key_size + h.value_size

/-- `header.record_size = STRUCT.size + payload_size`. -/
def AppendOnlyLogHeader.record_size (h : AppendOnlyLogHeader) : Nat :=
  STRUCT_size + h.payload_size

/-- `header.to_bytes() = STRUCT.pack(operation.value, key_size, value_size)`:
the tag byte, seven zero padding bytes, then the two sizes little-endian. -/
def AppendOnlyLogHeader.to_bytes (h : AppendOnlyLogHeader) : Bytes :=
  h.operation.value :: (List.replicate 7 0 ++ leBytes 8 h.key_size ++ leBytes 8 h.value_size)

/-- `AppendOnlyLogHeader.from_bytes`: `STRUCT.unpack` reads the tag byte at
offset 0 (padding bytes are skipped unchecked) and the two sizes at offsets
8 and 16; an unrecognized tag raises (modelled as `.error tag`, the
`LogStorageError` wrapping the enum's `ValueError`). -/
def AppendOnlyLogHeader.from_bytes (data : Bytes) : Except Nat AppendOnlyLogHeader :=
  let ks := deBytes ((data.drop 8).take 8)
  let vs := deBytes ((data.drop 16).take 8)
  match data.headD 0 with
  | 0 => .ok ⟨.SET, ks, vs⟩
  | 1 => .ok ⟨.DELETE, ks, vs⟩
  | t + 2 => .error (t + 2)

/-- `AppendOnlyLogPayload`: key bytes and value bytes. -/
structure AppendOnlyLogPayload where
  key : Bytes
  value : Bytes
deriving DecidableEq

/-- `payload.to_bytes() = key + value`, concatenated with no separator. -/
def AppendOnlyLogPayload.to_bytes (p : AppendOnlyLogPayload) : Bytes :=
  p.key ++ p.value

/-- `AppendOnlyLogRecord`: a header plus a payload. -/
structure AppendOnlyLogRecord where
  header : AppendOnlyLogHeader
  payload : AppendOnlyLogPayload
deriving DecidableEq

/-- The bytes `record.to_stream` writes: header bytes then payload bytes. -/
def AppendOnlyLogRecord.to_bytes (r : AppendOnlyLogRecord) : Bytes :=
  r.header.to_bytes ++ r.payload.to_bytes

/-- `record.to_stream(stream)` writes the header bytes then the payload bytes
at the stream position (here: the end of the stream) and returns the count of
bytes written, the sum of the two `write` return values. -/
def AppendOnlyLogRecord.to_stream (r : AppendOnlyLogRecord) (stream : Bytes) : Bytes × Nat :=
  (stream ++ r.to_bytes, r.header.to_bytes.length + r.payload.to_bytes.length)

/-- Causes carried by `LogCorruptedError` (`cause: str | Exception | None`):
the two literal strings, the `LogStorageError` raised for an unrecognized
operation tag, and an inner `LogCorruptedError` caught by the `except` clause
of `from_stream` and re-wrapped. -/
inductive LogCause
  | truncatedHeader
  | truncatedPayload
  | badOperation (tag : Nat)
  | wrappedCorrupted (offset : Nat) (inner : LogCause)
deriving DecidableEq

/-- The error taxonomy of `logger.py`: `LogKeyNotFoundError`,
`LogCorruptedError`, `LogInvalidOffsetError`, and an I/O error propagating
from the file layer. -/
inductive LogError
  | keyNotFound (key : Bytes)
  | corrupted (offset : Nat) (cause : LogCause)
  | invalidOffset (offset : Nat)
  | ioError
deriving DecidableEq

/-- `AppendOnlyLogRecord.from_stream`, decoding at position `pos` of `data`:
`stream.read(n)` returns the next `min n (length - pos)` bytes.  Returns
`none` on a clean end of stream, the next record and the new stream position
on success.  The truncated-payload `LogCorruptedError` is raised inside the
`try` block, so the `except Exception` clause catches it and re-raises it
wrapped as the cause of a fresh `LogCorruptedError` at the same offset. -/
def AppendOnlyLogRecord.from_stream (data : Bytes) (pos : Nat) :
    Except LogError (Option (AppendOnlyLogRecord × Nat)) :=
  let header_bytes := (data.drop pos).take STRUCT_size
  if header_bytes.length = 0 then
    .ok none
  else if header_bytes.length < STRUCT_size then
    .error (.corrupted pos .truncatedHeader)
  else
    match AppendOnlyLogHeader.from_bytes header_bytes with
    | .error tag => .error (.corrupted pos (.badOperation tag))
    | .ok header =>
      let payload_bytes := (data.drop (pos + STRUCT_size)).take header.payload_size
      if payload_bytes.length ≠ header.payload_size then
        .error (.corrupted pos (.wrappedCorrupted pos .truncatedPayload))
      else
        .ok (some (⟨header, ⟨payload_bytes.take header.key_size, payload_bytes.drop header.key_size⟩⟩,
          pos + STRUCT_size + header.payload_size))

/-- A record is well-formed when its header sizes are the lengths of its
payload parts and both fit in a `u64` (as every record the engine builds
does). -/
def WFRecord (r : AppendOnlyLogRecord) : Prop :=
  r.header.key_size = r.payload.key.length ∧
  r.header.value_size = r.payload.value.length ∧
  r.payload.key.length < 2 ^ 64 ∧
  r.payload.value.length < 2 ^ 64

theorem leBytes_length (w n : Nat) : (leBytes w n).length = w := by
  induction w generalizing n with
  | zero => rfl
  | succ w ih => simp [leBytes, ih]

theorem deBytes_leBytes (w n : Nat) (h : n < 256 ^ w) :
    deBytes (leBytes w n) = n := by
  induction w generalizing n with
  | zero =>
    simp [Nat.pow_zero] at h
    simp [h, leBytes, deBytes]
  | succ w ih =>
    have hdiv : n / 256 < 256 ^ w := by
      rw [Nat.div_lt_iff_lt_mul (by norm_num : 0 < 256)]
      calc n < 256 ^ (w + 1) := h
        _ = 256 ^ w * 256 := by rw [Nat.pow_succ]
    simp [leBytes, deBytes, ih _ hdiv, Nat.mod_add_div]

theorem header_to_bytes_length (h : AppendOnlyLogHeader) :
    h.to_bytes.length = STRUCT_size := by
  simp [AppendOnlyLogHeader.to_bytes, leBytes_length, STRUCT_size]

theorem from_bytes_to_bytes (h : AppendOnlyLogHeader)
    (hk : h.key_size < 2 ^ 64) (hv : h.value_size < 2 ^ 64) :
    AppendOnlyLogHeader.from_bytes h.to_bytes = .ok h := by
  obtain ⟨op, ks, vs⟩ := h
  have h256 : (256 : Nat) ^ 8 = 2 ^ 64 := by norm_num
  set b : Bytes := (AppendOnlyLogHeader.mk op ks vs).to_bytes with hbdef
  have hb : b = (op.value :: List.replicate 7 0) ++ (leBytes 8 ks ++ leBytes 8 vs) := by
    simp [hbdef, AppendOnlyLogHeader.to_bytes]
  have hdrop8 : b.drop 8 = leBytes 8 ks ++ leBytes 8 vs := by
    rw [hb]; exact List.drop_left' (by simp)
  have hdrop16 : b.drop 16 = leBytes 8 vs := by
    rw [hb, ← List.append_assoc]
    exact List.drop_left' (by simp [leBytes_length])
  have hks : (b.drop 8).take 8 = leBytes 8 ks := by
    rw [hdrop8]; exact List.take_left' (leBytes_length 8 ks)
  have hvs : (b.drop 16).take 8 = leBytes 8 vs := by
    rw [hdrop16, List.take_of_length_le (by simp [leBytes_length])]
  have hhead : b.headD 0 = op.value := by rw [hb]; rfl
  unfold AppendOnlyLogHeader.from_bytes
  rw [hks, hvs, hhead, deBytes_leBytes 8 _ (by rw [h256]; exact hk),
    deBytes_leBytes 8 _ (by rw [h256]; exact hv)]
  cases op <;> rfl

theorem record_to_bytes_length (r : AppendOnlyLogRecord) (hwf : WFRecord r) :
    r.to_bytes.length = STRUCT_size + r.header.payload_size := by
  obtain ⟨hk, hv, -, -⟩ := hwf
  simp [AppendOnlyLogRecord.to_bytes, AppendOnlyLogPayload.to_bytes,
    header_to_bytes_length, AppendOnlyLogHeader.payload_size, hk, hv]

/-- Decoding at the start of an encoded well-formed record recovers the
record and leaves the stream position right after it, whatever bytes precede
or follow it in the stream. -/
theorem from_stream_append (pre rest : Bytes) (r : AppendOnlyLogRecord) (hwf : WFRecord r) :
    AppendOnlyLogRecord.from_stream (pre ++ (r.to_bytes ++ rest)) pre.length =
      .ok (some (r, pre.length + r.to_bytes.length)) := by
  obtain ⟨hk, hv, hklt, hvlt⟩ := hwf
  have hdrop : (pre ++ (r.to_bytes ++ rest)).drop pre.length = r.to_bytes ++ rest :=
    List.drop_left pre _
  have hsplit : r.to_bytes ++ rest =
      r.header.to_bytes ++ (r.payload.to_bytes ++ rest) := by
    simp [AppendOnlyLogRecord.to_bytes]
  have hheader : ((pre ++ (r.to_bytes ++ rest)).drop pre.length).take STRUCT_size
      = r.header.to_bytes := by
    rw [hdrop, hsplit, ← header_to_bytes_length r.header, List.take_left]
  have hplen : r.payload.to_bytes.length = r.header.payload_size := by
    simp [AppendOnlyLogPayload.to_bytes, AppendOnlyLogHeader.payload_size, hk, hv]
  have hpayload : (pre ++ (r.to_bytes ++ rest)).drop (pre.length + STRUCT_size)
      = r.payload.to_bytes ++ rest := by
    have : pre ++ (r.to_bytes ++ rest) =
        (pre ++ r.header.to_bytes) ++ (r.payload.to_bytes ++ rest) := by
      simp [AppendOnlyLogRecord.to_bytes]
    rw [this]
    have hlen : (pre ++ r.header.to_bytes).length = pre.length + STRUCT_size := by
      simp [header_to_bytes_length]
    rw [← hlen, List.drop_left]
  have hptake : (r.payload.to_bytes ++ rest).take r.header.payload_size
      = r.payload.to_bytes := List.take_left' hplen
  have hkt : r.payload.to_bytes.take r.header.key_size = r.payload.key := by
    rw [AppendOnlyLogPayload.to_bytes]
    exact List.take_left' hk.symm
  have hkd : r.payload.to_bytes.drop r.header.key_size = r.payload.value := by
    rw [AppendOnlyLogPayload.to_bytes]
    exact List.drop_left' hk.symm
  simp only [AppendOnlyLogRecord.from_stream]
  rw [hheader, header_to_bytes_length]
  rw [if_neg (by norm_num [STRUCT_size] : ¬ (STRUCT_size = 0))]
  rw [if_neg (by simp : ¬ (STRUCT_size < STRUCT_size))]
  rw [from_bytes_to_bytes r.header (hk ▸ hklt) (hv ▸ hvlt)]
  dsimp only
  rw [hpayload, hptake, hplen]
  rw [if_neg (by simp : ¬ (r.header.payload_size ≠ r.header.payload_size))]
  rw [hkt, hkd, record_to_bytes_length r ⟨hk, hv, hklt, hvlt⟩, Nat.add_assoc]

/-- Modelled from the spec: the `InMemoryIndex` implementation
(`mydb/storage/index.py`) is not among the provided sources, only its
interface (`mydb/storage/abc.py`) and its tests.  Per spec §4.2 it is a
purely in-memory mapping from byte-string keys, compared bitwise, to
non-negative offsets, here an association list holding at most one entry per
key. -/
def Index := List (Bytes × Nat)

/-- The empty index a fresh engine starts from. -/
def Index.empty : Index := []

/-- Look up the offset stored for `k`, if any. -/
def Index.find : Index → Bytes → Option Nat
  | [], _ => none
  | e :: rest, k => if e.1 = k then some e.2 else Index.find rest k

/-- `index.has(key)`: true iff an entry exists for `key`. -/
def Index.has (idx : Index) (k : Bytes) : Bool :=
  (Index.find idx k).isSome

/-- `index.delete(key)`: removes the entry if present; silent no-op if
absent. -/
def Index.delete : Index → Bytes → Index
  | [], _ => []
  | e :: rest, k => if e.1 = k then Index.delete rest k else e :: Index.delete rest k

/-- `index.set(key, offset)`: inserts or overwrites the entry for `key`,
last-write-wins. -/
def Index.set (idx : Index) (k : Bytes) (off : Nat) : Index :=
  (k, off) :: Index.delete idx k

theorem find_set_self (idx : Index) (k : Bytes) (off : Nat) :
    Index.find (Index.set idx k off) k = some off := by
  simp [Index.set, Index.find]

theorem find_delete_self (idx : Index) (k : Bytes) :
    Index.find (Index.delete idx k) k = none := by
  induction idx with
  | nil => rfl
  | cons e rest ih =>
    by_cases he : e.1 = k <;> simp [Index.delete, Index.find, he, ih]

theorem find_delete_other (idx : Index) (k k' : Bytes) (hne : k ≠ k') :
    Index.find (Index.delete idx k) k' = Index.find idx k' := by
  induction idx with
  | nil => rfl
  | cons e rest ih =>
    by_cases he : e.1 = k
    · simp [Index.delete, Index.find, he, hne, ih]
    · by_cases he' : e.1 = k' <;>
        simp [Index.delete, Index.find, he, he', hne, Ne.symm hne, ih]

theorem find_set_other (idx : Index) (k k' : Bytes) (off : Nat) (hne : k ≠ k') :
    Index.find (Index.set idx k off) k' = Index.find idx k' := by
  simp [Index.set, Index.find, hne, find_delete_other idx k k' hne]

/-- `AppendOnlyLogStorage`, reduced to its persistent observable state: the
bytes of the log file at `_filepath` and the in-memory `_index`. -/
structure AppendOnlyLogStorage where
  file : Bytes
  index : Index

/-- The record `_append_record` builds for an operation, key and value:
`key_size` and `value_size` are the payload lengths. -/
def mkRecord (o : AppendOnlyLogOperation) (key value : Bytes) : AppendOnlyLogRecord :=
  ⟨⟨o, key.length, value.length⟩, ⟨key, value⟩⟩

/-- `_append_record`: open in append mode (so the write position, returned by
`tell()`, is the current file size), write the record, return that offset. -/
def AppendOnlyLogStorage.append_record (s : AppendOnlyLogStorage)
    (o : AppendOnlyLogOperation) (key value : Bytes) : AppendOnlyLogStorage × Nat :=
  (⟨s.file ++ (mkRecord o key value).to_bytes, s.index⟩, s.file.length)

/-- `_load_record_at(offset)`: seek to `offset` and decode one record; a
clean end of stream there (no bytes to read) raises
`LogInvalidOffsetError(offset)`. -/
def AppendOnlyLogStorage.load_record_at (file : Bytes) (off : Nat) :
    Except LogError AppendOnlyLogRecord :=
  match AppendOnlyLogRecord.from_stream file off with
  | .error e => .error e
  | .ok none => .error (.invalidOffset off)
  | .ok (some (r, _)) => .ok r

/-- `get(key)`: absent from the index raises `LogKeyNotFoundError`; otherwise
the record at the indexed offset is loaded and its payload key compared with
the requested key: on a match the payload value is returned, on a mismatch
the entry is evicted and `LogInvalidOffsetError(offset)` raised.  The result
is paired with the state after the call (only the index can change). -/
def AppendOnlyLogStorage.get (s : AppendOnlyLogStorage) (key : Bytes) :
    Except LogError Bytes × AppendOnlyLogStorage :=
  match Index.find s.index key with
  | none => (.error (.keyNotFound key), s)
  | some off =>
    match AppendOnlyLogStorage.load_record_at s.file off with
    | .error e => (.error e, s)
    | .ok record =>
      if record.payload.key = key then (.ok record.payload.value, s)
      else (.error (.invalidOffset off), ⟨s.file, Index.delete s.index key⟩)

/-- `set(key, value)` on the success path: append a `SET` record and store
its offset in the index. -/
def AppendOnlyLogStorage.set (s : AppendOnlyLogStorage) (key value : Bytes) :
    AppendOnlyLogStorage :=
  ⟨s.file ++ (mkRecord .SET key value).to_bytes, Index.set s.index key s.file.length⟩

/-- `delete(key)` on the success path: return immediately when the key is
absent from the index, else append a `DELETE` record with empty value and
evict the entry. -/
def AppendOnlyLogStorage.delete (s : AppendOnlyLogStorage) (key : Bytes) :
    AppendOnlyLogStorage :=
  if Index.has s.index key then
    ⟨s.file ++ (mkRecord .DELETE key []).to_bytes, Index.delete s.index key⟩
  else s

/-- The outcome of the append performed by a mutation: either the write
succeeds, or the file layer raises an I/O error after some prefix of the
record (possibly none of it) reached the file. -/
inductive AppendOutcome
  | success
  | torn (written : Bytes)

/-- `set(key, value)` with an explicit append outcome: the exception from a
failed append propagates out of `set` before the `index.set` line runs. -/
def AppendOnlyLogStorage.setWith (s : AppendOnlyLogStorage) (key value : Bytes)
    (oc : AppendOutcome) : Except LogError Unit × AppendOnlyLogStorage :=
  match oc with
  | .success => (.ok (), s.set key value)
  | .torn tb => (.error .ioError, ⟨s.file ++ tb, s.index⟩)

/-- `delete(key)` with an explicit append outcome: on an absent key no append
is attempted at all; on a present key a failed append propagates before the
`index.delete` line runs. -/
def AppendOnlyLogStorage.deleteWith (s : AppendOnlyLogStorage) (key : Bytes)
    (oc : AppendOutcome) : Except LogError Unit × AppendOnlyLogStorage :=
  if Index.has s.index key then
    match oc with
    | .success => (.ok (), ⟨s.file ++ (mkRecord .DELETE key []).to_bytes, Index.delete s.index key⟩)
    | .torn tb => (.error .ioError, ⟨s.file ++ tb, s.index⟩)
  else (.ok (), s)

theorem from_stream_pos_bounds (data : Bytes) (pos : Nat) (r : AppendOnlyLogRecord) (q : Nat)
    (h : AppendOnlyLogRecord.from_stream data pos = .ok (some (r, q))) :
    pos < q ∧ q ≤ data.length := by
  simp only [AppendOnlyLogRecord.from_stream] at h
  split at h
  · simp at h
  · split at h
    · simp at h
    · rename_i h0 hlt
      split at h
      · simp at h
      · rename_i header hfb
        split at h
        · simp at h
        · rename_i hp
          simp only [Except.ok.injEq, Option.some.injEq, Prod.mk.injEq] at h
          obtain ⟨-, hq⟩ := h
          push_neg at hp hlt
          have hhb := List.length_take STRUCT_size (data.drop pos)
          rw [List.length_drop] at hhb
          rw [hhb] at hlt
          have hpb := List.length_take header.payload_size (data.drop (pos + STRUCT_size))
          rw [List.length_drop, hp] at hpb
          have hs : STRUCT_size = 24 := rfl
          omega

/-- The index update `_build_index` performs for one decoded record at
`current_offset`: `DELETE` evicts the key, `SET` stores the offset. -/
def applyRecord (idx : Index) (r : AppendOnlyLogRecord) (off : Nat) : Index :=
  match r.header.operation with
  | .DELETE => Index.delete idx r.payload.key
  | .SET => Index.set idx r.payload.key off

/-- `_build_index`, from stream position `pos` onwards: decode records one at
a time, remembering the offset each started at, until a clean end of stream;
a `LogCorruptedError` propagates and the scan fails. -/
def buildIndexFrom (data : Bytes) (idx : Index) (pos : Nat) : Except LogError Index :=
  match hd : AppendOnlyLogRecord.from_stream data pos with
  | .error e => .error e
  | .ok none => .ok idx
  | .ok (some (r, q)) =>
    have := from_stream_pos_bounds data pos r q hd
    buildIndexFrom data (applyRecord idx r pos) q
termination_by data.length - pos
decreasing_by omega

/-- `AppendOnlyLogStorage.__init__`: touch the file (here: the file's bytes
are given) and rebuild the caller-supplied index by a full scan from offset
0.  Construction fails when the scan hits corruption. -/
def openWith (file : Bytes) (idx : Index) : Except LogError AppendOnlyLogStorage :=
  (buildIndexFrom file idx 0).map (fun built => ⟨file, built⟩)

/-- The byte-concatenation of a list of records, the shape of a log file
produced by successful appends. -/
def assemble : List AppendOnlyLogRecord → Bytes
  | [] => []
  | r :: rs => r.to_bytes ++ assemble rs

/-- Replaying a record list over an index, tracking the offset at which each
record starts, mirrors what the recovery scan computes. -/
def replayFrom (pos : Nat) : List AppendOnlyLogRecord → Index → Index
  | [], idx => idx
  | r :: rs, idx => replayFrom (pos + r.to_bytes.length) rs (applyRecord idx r pos)

theorem assemble_append (rs : List AppendOnlyLogRecord) (r : AppendOnlyLogRecord) :
    assemble (rs ++ [r]) = assemble rs ++ r.to_bytes := by
  induction rs with
  | nil => simp [assemble]
  | cons a rest ih => simp [assemble, ih]

theorem assemble_length_append (rs : List AppendOnlyLogRecord) (r : AppendOnlyLogRecord) :
    (assemble (rs ++ [r])).length = (assemble rs).length + r.to_bytes.length := by
  simp [assemble_append]

theorem replayFrom_append (pos : Nat) (rs : List AppendOnlyLogRecord)
    (r : AppendOnlyLogRecord) (idx : Index) :
    replayFrom pos (rs ++ [r]) idx =
      applyRecord (replayFrom pos rs idx) r (pos + (assemble rs).length) := by
  induction rs generalizing pos idx with
  | nil => simp [replayFrom, assemble]
  | cons a rest ih =>
    show replayFrom (pos + a.to_bytes.length) (rest ++ [r]) (applyRecord idx a pos) = _
    rw [ih]
    show _ = applyRecord (replayFrom (pos + a.to_bytes.length) rest (applyRecord idx a pos)) r
      (pos + (a.to_bytes ++ assemble rest).length)
    rw [List.length_append, Nat.add_assoc]

theorem buildIndexFrom_none (data : Bytes) (idx : Index) (pos : Nat)
    (h : AppendOnlyLogRecord.from_stream data pos = .ok none) :
    buildIndexFrom data idx pos = .ok idx := by
  rw [buildIndexFrom]
  split
  · rename_i e hd; rw [h] at hd; simp at hd
  · rfl
  · rename_i r q hd; rw [h] at hd; simp at hd

theorem buildIndexFrom_some (data : Bytes) (idx : Index) (pos : Nat)
    (r : AppendOnlyLogRecord) (q : Nat)
    (h : AppendOnlyLogRecord.from_stream data pos = .ok (some (r, q))) :
    buildIndexFrom data idx pos = buildIndexFrom data (applyRecord idx r pos) q := by
  rw [buildIndexFrom]
  split
  · rename_i e hd; rw [h] at hd; simp at hd
  · rename_i hd; rw [h] at hd; simp at hd
  · rename_i r' q' hd
    rw [h] at hd
    simp only [Except.ok.injEq, Option.some.injEq, Prod.mk.injEq] at hd
    obtain ⟨hr, hq⟩ := hd
    rw [hr, hq]

/-- The recovery scan of a well-framed byte suffix starting at position
`pre.length` computes exactly the replay of its records. -/
theorem buildIndexFrom_assemble (rs : List AppendOnlyLogRecord) (pre : Bytes) (idx : Index)
    (hwf : ∀ r ∈ rs, WFRecord r) :
    buildIndexFrom (pre ++ assemble rs) idx pre.length =
      .ok (replayFrom pre.length rs idx) := by
  induction rs generalizing pre idx with
  | nil =>
    have hend : AppendOnlyLogRecord.from_stream (pre ++ assemble []) pre.length = .ok none := by
      simp [AppendOnlyLogRecord.from_stream, assemble, List.drop_left' (rfl : pre.length = pre.length)]
    rw [buildIndexFrom_none _ _ _ hend]
    rfl
  | cons r rest ih =>
    have hdec : AppendOnlyLogRecord.from_stream (pre ++ assemble (r :: rest)) pre.length =
        .ok (some (r, pre.length + r.to_bytes.length)) := by
      have hasm : assemble (r :: rest) = r.to_bytes ++ assemble rest := rfl
      rw [hasm]
      exact from_stream_append pre (assemble rest) r (hwf r (by simp))
    rw [buildIndexFrom_some _ _ _ _ _ hdec]
    have hre : pre ++ assemble (r :: rest) = (pre ++ r.to_bytes) ++ assemble rest := by
      simp [assemble]
    have hlen : pre.length + r.to_bytes.length = (pre ++ r.to_bytes).length := by simp
    rw [hre, hlen, ih (pre ++ r.to_bytes) (applyRecord idx r pre.length)
      (fun a ha => hwf a (by simp [ha]))]
    rw [replayFrom, ← hlen]

/-- A mutation issued through the public `StorageEngine` interface. -/
inductive EngineOp
  | setOp (key value : Bytes)
  | deleteOp (key : Bytes)

/-- Run one successful mutation on the engine state. -/
def applyOp (s : AppendOnlyLogStorage) : EngineOp → AppendOnlyLogStorage
  | .setOp k v => s.set k v
  | .deleteOp k => s.delete k

/-- Run a sequence of successful mutations, oldest first. -/
def applyOps (s : AppendOnlyLogStorage) (ops : List EngineOp) : AppendOnlyLogStorage :=
  ops.foldl applyOp s

/-- The keys and values of an operation fit in the `u64` header fields. -/
def OpWF : EngineOp → Prop
  | .setOp k v => k.length < 2 ^ 64 ∧ v.length < 2 ^ 64
  | .deleteOp k => k.length < 2 ^ 64

/-- The engine invariant relating log and index: the file is the
concatenation of well-formed records and the index is exactly their replay
from an empty index, i.e. invariant I1 of the spec. -/
def TracksLog (s : AppendOnlyLogStorage) : Prop :=
  ∃ rs : List AppendOnlyLogRecord,
    (∀ r ∈ rs, WFRecord r) ∧ s.file = assemble rs ∧ replayFrom 0 rs Index.empty = s.index

theorem wf_mkRecord (o : AppendOnlyLogOperation) (k v : Bytes)
    (hk : k.length < 2 ^ 64) (hv : v.length < 2 ^ 64) : WFRecord (mkRecord o k v) :=
  ⟨rfl, rfl, hk, hv⟩

theorem load_record_at_append (pre rest : Bytes) (r : AppendOnlyLogRecord) (hwf : WFRecord r) :
    AppendOnlyLogStorage.load_record_at (pre ++ (r.to_bytes ++ rest)) pre.length = .ok r := by
  unfold AppendOnlyLogStorage.load_record_at
  rw [from_stream_append pre rest r hwf]

theorem tracksLog_set (s : AppendOnlyLogStorage) (k v : Bytes)
    (hk : k.length < 2 ^ 64) (hv : v.length < 2 ^ 64) (h : TracksLog s) :
    TracksLog (s.set k v) := by
  obtain ⟨rs, hwf, hfile, hidx⟩ := h
  refine ⟨rs ++ [mkRecord .SET k v], ?_, ?_, ?_⟩
  · intro r hr
    rcases List.mem_append.mp hr with hin | hin
    · exact hwf r hin
    · rcases List.mem_singleton.mp hin with rfl
      exact wf_mkRecord _ _ _ hk hv
  · rw [assemble_append, ← hfile]
    rfl
  · rw [replayFrom_append, hidx, Nat.zero_add, ← hfile]
    rfl

theorem tracksLog_delete (s : AppendOnlyLogStorage) (k : Bytes)
    (hk : k.length < 2 ^ 64) (h : TracksLog s) :
    TracksLog (s.delete k) := by
  obtain ⟨rs, hwf, hfile, hidx⟩ := h
  unfold AppendOnlyLogStorage.delete
  by_cases hhas : Index.has s.index k
  · rw [if_pos hhas]
    refine ⟨rs ++ [mkRecord .DELETE k []], ?_, ?_, ?_⟩
    · intro r hr
      rcases List.mem_append.mp hr with hin | hin
      · exact hwf r hin
      · rcases List.mem_singleton.mp hin with rfl
        exact wf_mkRecord _ _ _ hk (by norm_num)
    · rw [assemble_append, ← hfile]
    · rw [replayFrom_append, hidx, Nat.zero_add]
      rfl
  · rw [if_neg hhas]
    exact ⟨rs, hwf, hfile, hidx⟩

theorem tracksLog_applyOps (s : AppendOnlyLogStorage) (ops : List EngineOp)
    (hops : ∀ op ∈ ops, OpWF op) (h : TracksLog s) : TracksLog (applyOps s ops) := by
  induction ops generalizing s with
  | nil => exact h
  | cons op rest ih =>
    have hstep : TracksLog (applyOp s op) := by
      match op with
      | .setOp k v =>
        obtain ⟨hk, hv⟩ := hops _ (List.mem_cons_self _ _)
        exact tracksLog_set s k v hk hv h
      | .deleteOp k =>
        exact tracksLog_delete s k (hops _ (List.mem_cons_self _ _)) h
    exact ih (applyOp s op) (fun o ho => hops o (List.mem_cons_of_mem _ ho)) hstep

/-- Opening over the log of a state satisfying the engine invariant rebuilds
exactly that state's index. -/
theorem openWith_tracksLog (s : AppendOnlyLogStorage) (h : TracksLog s) :
    openWith s.file Index.empty = .ok ⟨s.file, s.index⟩ := by
  obtain ⟨rs, hwf, hfile, hidx⟩ := h
  unfold openWith
  have hbuild : buildIndexFrom s.file Index.empty 0 = .ok s.index := by
    have := buildIndexFrom_assemble rs [] Index.empty hwf
    simp only [List.nil_append, List.length_nil] at this
    rw [hfile, this, hidx]
  rw [hbuild]
  rfl

/-- The decode outcome enumeration of spec §4.1, written from the spec's
words as a function of how many bytes are available at the stream position,
with the header size taken from the code's actual `STRUCT.size` (24, not the
spec's 17) and the truncated-payload cause wrapped the way `from_stream`
wraps it: 0 available bytes is a clean end of stream; fewer than a full
header is a truncated header; an unrecognized tag is `Corrupted`; fewer than
`key_size + value_size` payload bytes is a truncated payload; otherwise the
fully constructed record, the payload split at `key_size`. -/
def from_stream_spec (data : Bytes) (pos : Nat) :
    Except LogError (Option (AppendOnlyLogRecord × Nat)) :=
  let avail := data.length - pos
  if avail = 0 then .ok none
  else if avail < STRUCT_size then .error (.corrupted pos .truncatedHeader)
  else
    let tag := (data.drop pos).headD 0
    let ks := deBytes ((data.drop (pos + 8)).take 8)
    let vs := deBytes ((data.drop (pos + 16)).take 8)
    if tag = 0 ∨ tag = 1 then
      if avail < STRUCT_size + (ks + vs) then
        .error (.corrupted pos (.wrappedCorrupted pos .truncatedPayload))
      else
        .ok (some (⟨⟨if tag = 0 then .SET else .DELETE, ks, vs⟩,
          ⟨(data.drop (pos + STRUCT_size)).take ks,
           ((data.drop (pos + STRUCT_size)).drop ks).take vs⟩⟩,
          pos + STRUCT_size + (ks + vs)))
    else .error (.corrupted pos (.badOperation tag))

theorem headD_take (x : Bytes) (n : Nat) : (x.take (n + 1)).headD 0 = x.headD 0 := by
  cases x <;> rfl

theorem header_bytes_headD (data : Bytes) (pos : Nat) :
    (((data.drop pos).take STRUCT_size)).headD 0 = (data.drop pos).headD 0 := by
  have h24 : STRUCT_size = 23 + 1 := rfl
  rw [h24, headD_take]

theorem header_bytes_ks (data : Bytes) (pos : Nat) :
    ((((data.drop pos).take STRUCT_size)).drop 8).take 8 = (data.drop (pos + 8)).take 8 := by
  rw [List.drop_take, List.take_take, List.drop_drop]
  norm_num [STRUCT_size]

theorem header_bytes_vs (data : Bytes) (pos : Nat) :
    ((((data.drop pos).take STRUCT_size)).drop 16).take 8 = (data.drop (pos + 16)).take 8 := by
  rw [List.drop_take, List.take_take, List.drop_drop]
  norm_num [STRUCT_size]

theorem header_bytes_length_full (data : Bytes) (pos : Nat)
    (h : STRUCT_size ≤ data.length - pos) :
    ((data.drop pos).take STRUCT_size).length = STRUCT_size := by
  simp only [List.length_take, List.length_drop]
  omega

theorem fs_eval_none (data : Bytes) (pos : Nat) (h : data.length - pos = 0) :
    AppendOnlyLogRecord.from_stream data pos = .ok none := by
  have hlen : ((data.drop pos).take STRUCT_size).length = 0 := by
    simp [List.length_take, List.length_drop, h]
  simp only [AppendOnlyLogRecord.from_stream]
  rw [if_pos hlen]

theorem fs_eval_truncated_header (data : Bytes) (pos : Nat)
    (h0 : data.length - pos ≠ 0) (h1 : data.length - pos < STRUCT_size) :
    AppendOnlyLogRecord.from_stream data pos = .error (.corrupted pos .truncatedHeader) := by
  have hlen : ((data.drop pos).take STRUCT_size).length = data.length - pos := by
    simp only [List.length_take, List.length_drop]
    omega
  simp only [AppendOnlyLogRecord.from_stream]
  rw [hlen, if_neg h0, if_pos h1]

theorem fs_eval_with_header (data : Bytes) (pos : Nat) (hdr : AppendOnlyLogHeader)
    (h24 : STRUCT_size ≤ data.length - pos)
    (hfb : AppendOnlyLogHeader.from_bytes ((data.drop pos).take STRUCT_size) = .ok hdr) :
    AppendOnlyLogRecord.from_stream data pos =
      if data.length - (pos + STRUCT_size) < hdr.payload_size then
        .error (.corrupted pos (.wrappedCorrupted pos .truncatedPayload))
      else
        .ok (some (⟨hdr,
          ⟨((data.drop (pos + STRUCT_size)).take hdr.payload_size).take hdr.key_size,
           ((data.drop (pos + STRUCT_size)).take hdr.payload_size).drop hdr.key_size⟩⟩,
          pos + STRUCT_size + hdr.payload_size)) := by
  have hlen := header_bytes_length_full data pos h24
  have hs : STRUCT_size = 24 := rfl
  simp only [AppendOnlyLogRecord.from_stream]
  rw [hlen, if_neg (by omega : ¬ (STRUCT_size = 0)), if_neg (by omega : ¬ (STRUCT_size < STRUCT_size)), hfb]
  by_cases hp : data.length - (pos + STRUCT_size) < hdr.payload_size
  · rw [if_pos hp]
    have hne : ((data.drop (pos + STRUCT_size)).take hdr.payload_size).length ≠ hdr.payload_size := by
      simp only [List.length_take, List.length_drop]
      omega
    simp only [hne, if_true, ne_eq, not_false_eq_true, if_pos]
  · rw [if_neg hp]
    have heq : ((data.drop (pos + STRUCT_size)).take hdr.payload_size).length = hdr.payload_size := by
      simp only [List.length_take, List.length_drop]
      omega
    simp only [ne_eq, heq, not_true_eq_false, if_false]

theorem fs_eval_bad_operation (data : Bytes) (pos : Nat)
    (h24 : STRUCT_size ≤ data.length - pos)
    (ht2 : 2 ≤ (data.drop pos).headD 0) :
    AppendOnlyLogRecord.from_stream data pos =
      .error (.corrupted pos (.badOperation ((data.drop pos).headD 0))) := by
  obtain ⟨t, htt⟩ : ∃ t, (data.drop pos).headD 0 = t + 2 :=
    ⟨(data.drop pos).headD 0 - 2, by omega⟩
  have hlen := header_bytes_length_full data pos h24
  have hfb : AppendOnlyLogHeader.from_bytes ((data.drop pos).take STRUCT_size)
      = .error (t + 2) := by
    simp only [AppendOnlyLogHeader.from_bytes]
    rw [header_bytes_headD, htt]
  simp only [AppendOnlyLogRecord.from_stream]
  rw [hlen, if_neg (by simp [STRUCT_size] : ¬ (STRUCT_size = 0)),
    if_neg (by omega : ¬ (STRUCT_size < STRUCT_size)), hfb, htt]

theorem from_bytes_of_tag (data : Bytes) (pos : Nat) (op : AppendOnlyLogOperation)
    (ht : (data.drop pos).headD 0 = op.value) :
    AppendOnlyLogHeader.from_bytes ((data.drop pos).take STRUCT_size) =
      .ok ⟨op, deBytes ((data.drop (pos + 8)).take 8), deBytes ((data.drop (pos + 16)).take 8)⟩ := by
  simp only [AppendOnlyLogHeader.from_bytes]
  rw [header_bytes_headD, ht, header_bytes_ks, header_bytes_vs]
  cases op <;> rfl

/-- The code's decoder agrees with the (amended) spec enumeration of decode
outcomes at every stream and position. -/
theorem from_stream_eq_spec (data : Bytes) (pos : Nat) :
    AppendOnlyLogRecord.from_stream data pos = from_stream_spec data pos := by
  have hs : STRUCT_size = 24 := rfl
  by_cases h0 : data.length - pos = 0
  · rw [fs_eval_none data pos h0]
    simp only [from_stream_spec]
    rw [if_pos h0]
  · by_cases h1 : data.length - pos < STRUCT_size
    · rw [fs_eval_truncated_header data pos h0 h1]
      simp only [from_stream_spec]
      rw [if_neg h0, if_pos h1]
    · have h24 : STRUCT_size ≤ data.length - pos := by omega
      rcases ht : (data.drop pos).headD 0 with _ | _ | t
      · -- tag 0: SET
        have hfb := from_bytes_of_tag data pos .SET ht
        rw [fs_eval_with_header data pos _ h24 hfb]
        simp only [from_stream_spec]
        rw [if_neg h0, if_neg h1, ht]
        set ks := deBytes ((data.drop (pos + 8)).take 8) with hksdef
        set vs := deBytes ((data.drop (pos + 16)).take 8) with hvsdef
        rw [if_pos (Or.inl rfl : (0 : Nat) = 0 ∨ (0 : Nat) = 1),
          if_pos (rfl : (0 : Nat) = 0)]
        have hps : (AppendOnlyLogHeader.mk .SET ks vs).payload_size = ks + vs := rfl
        rw [hps]
        by_cases hp : data.length - (pos + STRUCT_size) < ks + vs
        · rw [if_pos hp, if_pos (by omega : data.length - pos < STRUCT_size + (ks + vs))]
        · rw [if_neg hp, if_neg (by omega : ¬ (data.length - pos < STRUCT_size + (ks + vs))),
            List.take_take, Nat.min_eq_left (Nat.le_add_right ks vs), List.drop_take,
            Nat.add_sub_cancel_left]
      · -- tag 1: DELETE
        have hfb := from_bytes_of_tag data pos .DELETE ht
        rw [fs_eval_with_header data pos _ h24 hfb]
        simp only [from_stream_spec]
        rw [if_neg h0, if_neg h1, ht]
        set ks := deBytes ((data.drop (pos + 8)).take 8) with hksdef
        set vs := deBytes ((data.drop (pos + 16)).take 8) with hvsdef
        rw [if_pos (by norm_num : (0 + 1 : Nat) = 0 ∨ (0 + 1 : Nat) = 1),
          if_neg (by norm_num : ¬ ((0 + 1 : Nat) = 0))]
        have hps : (AppendOnlyLogHeader.mk .DELETE ks vs).payload_size = ks + vs := rfl
        rw [hps]
        by_cases hp : data.length - (pos + STRUCT_size) < ks + vs
        · rw [if_pos hp, if_pos (by omega : data.length - pos < STRUCT_size + (ks + vs))]
        · rw [if_neg hp, if_neg (by omega : ¬ (data.length - pos < STRUCT_size + (ks + vs))),
            List.take_take, Nat.min_eq_left (Nat.le_add_right ks vs), List.drop_take,
            Nat.add_sub_cancel_left]
      · -- unrecognized tag
        rw [fs_eval_bad_operation data pos h24 (by omega)]
        simp only [from_stream_spec]
        rw [if_neg h0, if_neg h1, ht]
        rw [if_neg (by omega : ¬ ((t + 1 + 1 : Nat) = 0 ∨ (t + 1 + 1 : Nat) = 1))]

theorem mkRecord_to_bytes_length (o : AppendOnlyLogOperation) (k v : Bytes) :
    (mkRecord o k v).to_bytes.length = STRUCT_size + (k.length + v.length) := by
  simp [mkRecord, AppendOnlyLogRecord.to_bytes, AppendOnlyLogPayload.to_bytes,
    header_to_bytes_length]

theorem get_file_frame (s : AppendOnlyLogStorage) (k : Bytes) :
    ((s.get k).2).file = s.file := by
  unfold AppendOnlyLogStorage.get
  split
  · rfl
  · split
    · rfl
    · split <;> rfl

/-- C1: the claim states that the encoded header is exactly 17 bytes in fixed
little-endian `u8/u64/u64` layout and that an encoded record occupies
`17 + key_size + value_size` bytes.  Counterexample: `STRUCT = Struct("BQQ")`
uses native alignment, so already for the empty `SET` record the header packs
to 24 bytes (one tag byte, seven padding bytes, two 8-byte sizes) and
`to_stream` reports 24 bytes written, not 17. -/
theorem C1_counterexample :
    (AppendOnlyLogHeader.mk .SET 0 0).to_bytes.length = 24 ∧
    (AppendOnlyLogHeader.mk .SET 0 0).to_bytes.length ≠ 17 ∧
    ((mkRecord .SET [] []).to_stream []).2 ≠ 17 := by
  refine ⟨rfl, by decide, by decide⟩

/-- C1 (amended): for every record the engine builds, the encoded header is
exactly 24 bytes in the native `Struct("BQQ")` layout — the `u8` tag, seven
zero padding bytes, then `key_size` and `value_size` as little-endian `u64` —
and the whole encoded record occupies exactly `24 + key_size + value_size`
bytes of the stream, the count returned by `to_stream`, which equals
`record_size`. -/
theorem C1_header_layout (op : AppendOnlyLogOperation) (k v stream : Bytes) :
    (mkRecord op k v).header.to_bytes =
      op.value :: (List.replicate 7 0 ++ leBytes 8 k.length ++ leBytes 8 v.length) ∧
    (mkRecord op k v).header.to_bytes.length = 24 ∧
    ((mkRecord op k v).to_stream stream).2 = 24 + (k.length + v.length) ∧
    ((mkRecord op k v).to_stream stream).1.length = stream.length + (24 + (k.length + v.length)) ∧
    ((mkRecord op k v).to_stream stream).2 = (mkRecord op k v).header.record_size := by
  refine ⟨rfl, header_to_bytes_length _, ?_, ?_, ?_⟩
  · simp [AppendOnlyLogRecord.to_stream, header_to_bytes_length, AppendOnlyLogPayload.to_bytes,
      mkRecord, STRUCT_size]
  · simp [AppendOnlyLogRecord.to_stream, mkRecord_to_bytes_length, STRUCT_size]
  · simp [AppendOnlyLogRecord.to_stream, header_to_bytes_length, AppendOnlyLogPayload.to_bytes,
      mkRecord, AppendOnlyLogHeader.record_size, AppendOnlyLogHeader.payload_size,
      STRUCT_size]

/-- C3: for every well-formed record (tag in the enumeration, sizes equal to
the payload lengths and fitting `u64`), encoding it onto a stream and then
decoding from the same position yields the record back, with the stream
position advanced by exactly the written byte count. -/
theorem C3_codec_roundtrip (stream : Bytes) (r : AppendOnlyLogRecord) (hwf : WFRecord r) :
    AppendOnlyLogRecord.from_stream (r.to_stream stream).1 stream.length =
      .ok (some (r, stream.length + (r.to_stream stream).2)) := by
  have h := from_stream_append stream [] r hwf
  have h1 : (r.to_stream stream).1 = stream ++ (r.to_bytes ++ []) := by
    simp [AppendOnlyLogRecord.to_stream]
  have h2 : (r.to_stream stream).2 = r.to_bytes.length := by
    simp [AppendOnlyLogRecord.to_stream, AppendOnlyLogRecord.to_bytes]
  rw [h1, h2, h]

/-- C3 witness: the roundtrip at a concrete record and stream. -/
theorem C3_witness :
    WFRecord (mkRecord .SET [1] [2, 3]) ∧
    AppendOnlyLogRecord.from_stream ((mkRecord .SET [1] [2, 3]).to_stream [9]).1
        ([9] : Bytes).length =
      .ok (some (mkRecord .SET [1] [2, 3],
        ([9] : Bytes).length + ((mkRecord .SET [1] [2, 3]).to_stream [9]).2)) := by
  have hwf : WFRecord (mkRecord .SET [1] [2, 3]) := ⟨rfl, rfl, by decide, by decide⟩
  exact ⟨hwf, C3_codec_roundtrip [9] (mkRecord .SET [1] [2, 3]) hwf⟩

/-- C5: the claim enumerates the decode outcomes with a 17-byte header: 0
bytes read is end of stream, 1-16 bytes a truncated header, and otherwise the
header is parsed.  Counterexample: on a stream of 17 zero bytes the claim
mandates a parsed header (tag 0 is recognized, sizes 0, empty payload) and a
returned record, but the code reads up to `STRUCT.size = 24` header bytes and
fails with a truncated-header `LogCorruptedError` at offset 0. -/
theorem C5_counterexample :
    AppendOnlyLogRecord.from_stream (List.replicate 17 0) 0 =
      .error (.corrupted 0 .truncatedHeader) := by
  rfl

/-- C5 (amended): for every stream and position, decode has exactly these
outcomes: 0 available bytes returns "no more records"; 1-23 available bytes
fails with `Corrupted` at the start offset with a truncated-header cause; an
unrecognized operation tag fails with `Corrupted`; fewer than
`key_size + value_size` available payload bytes fails with `Corrupted`
carrying a truncated-payload cause; otherwise the fully constructed record is
returned — i.e. the decoder agrees everywhere with the spec-side outcome
function `from_stream_spec`. -/
theorem C5_decode_outcomes (data : Bytes) (pos : Nat) :
    AppendOnlyLogRecord.from_stream data pos = from_stream_spec data pos :=
  from_stream_eq_spec data pos

/-- C2: for every key and value whose lengths fit the `u64` header fields
(in particular empty and binary-unsafe byte strings) and every engine state —
reachable ones included — after `set(k, v)` succeeds, `get(k)` returns
exactly `v`. -/
theorem C2_set_then_get (s : AppendOnlyLogStorage) (k v : Bytes)
    (hk : k.length < 2 ^ 64) (hv : v.length < 2 ^ 64) :
    ((s.set k v).get k).1 = .ok v := by
  have hfind : Index.find (Index.set s.index k s.file.length) k = some s.file.length :=
    find_set_self _ _ _
  have hload : AppendOnlyLogStorage.load_record_at (s.file ++ (mkRecord .SET k v).to_bytes)
      s.file.length = .ok (mkRecord .SET k v) := by
    have h := load_record_at_append s.file [] (mkRecord .SET k v) (wf_mkRecord _ _ _ hk hv)
    simpa using h
  simp only [AppendOnlyLogStorage.set, AppendOnlyLogStorage.get, hfind, hload]
  rw [if_pos (show (mkRecord .SET k v).payload.key = k from rfl)]
  rfl

/-- C2 witness: the roundtrip at a concrete state with a binary key. -/
theorem C2_witness :
    ([0, 255] : Bytes).length < 2 ^ 64 ∧ ([1] : Bytes).length < 2 ^ 64 ∧
    (((AppendOnlyLogStorage.mk [] []).set [0, 255] [1]).get [0, 255]).1 = .ok [1] :=
  ⟨by decide, by decide,
    C2_set_then_get ⟨[], []⟩ [0, 255] [1] (by decide) (by decide)⟩

/-- C4: for every state satisfying the log/index invariant (in particular any
state reached from a fresh engine over an empty file) and every sequence of
successful mutations with `u64`-sized keys and values, a second engine opened
over the resulting file with an empty index rebuilds exactly the first
engine's index, and therefore answers every `get` identically. -/
theorem C4_recovery_equiv (s : AppendOnlyLogStorage) (ops : List EngineOp)
    (hs : TracksLog s) (hops : ∀ op ∈ ops, OpWF op) :
    openWith (applyOps s ops).file Index.empty =
      .ok ⟨(applyOps s ops).file, (applyOps s ops).index⟩ ∧
    ∀ sB, openWith (applyOps s ops).file Index.empty = .ok sB →
      ∀ k, sB.get k = (applyOps s ops).get k := by
  have h := openWith_tracksLog _ (tracksLog_applyOps s ops hops hs)
  refine ⟨h, ?_⟩
  intro sB hB k
  rw [h] at hB
  injection hB with hB
  rw [← hB]

/-- C4 witness: two sets and a delete from a fresh engine over an empty
file. -/
theorem C4_witness :
    TracksLog ⟨[], []⟩ ∧
    (∀ op ∈ [EngineOp.setOp [1] [2], EngineOp.setOp [3] [4], EngineOp.deleteOp [1]], OpWF op) ∧
    openWith (applyOps ⟨[], []⟩
        [EngineOp.setOp [1] [2], EngineOp.setOp [3] [4], EngineOp.deleteOp [1]]).file
        Index.empty =
      .ok ⟨(applyOps ⟨[], []⟩
        [EngineOp.setOp [1] [2], EngineOp.setOp [3] [4], EngineOp.deleteOp [1]]).file,
        (applyOps ⟨[], []⟩
        [EngineOp.setOp [1] [2], EngineOp.setOp [3] [4], EngineOp.deleteOp [1]]).index⟩ := by
  have ht : TracksLog ⟨[], []⟩ := ⟨[], by simp, rfl, rfl⟩
  have hops : ∀ op ∈ [EngineOp.setOp [1] [2], EngineOp.setOp [3] [4], EngineOp.deleteOp [1]],
      OpWF op := by
    intro op hop
    simp only [List.mem_cons, List.not_mem_nil, or_false] at hop
    rcases hop with rfl | rfl | rfl
    · exact ⟨by decide, by decide⟩
    · exact ⟨by decide, by decide⟩
    · exact (by decide : ([1] : Bytes).length < 2 ^ 64)
  exact ⟨ht, hops, (C4_recovery_equiv ⟨[], []⟩ _ ht hops).1⟩

/-- C6: the claim states that on every path where `get` raises
`InvalidOffset` the index entry has been evicted first, so a retry yields
`KeyNotFound`.  Counterexample: with an empty log file and a pre-populated
index entry for key `[107]` at offset 0 — a state the constructor itself
produces when handed that index, since the scan of an empty file is a no-op —
`get` propagates `LogInvalidOffsetError` from `_load_record_at` (end of
stream, no record decoded) without touching the index, and the retry raises
`InvalidOffset` again, not `KeyNotFound`. -/
theorem C6_counterexample :
    openWith [] [([107], 0)] = .ok ⟨[], [([107], 0)]⟩ ∧
    ((AppendOnlyLogStorage.mk [] [([107], 0)]).get [107]).1 = .error (.invalidOffset 0) ∧
    ((AppendOnlyLogStorage.mk [] [([107], 0)]).get [107]).2.index = [([107], 0)] ∧
    (((AppendOnlyLogStorage.mk [] [([107], 0)]).get [107]).2.get [107]).1 =
      .error (.invalidOffset 0) := by
  refine ⟨?_, rfl, rfl, rfl⟩
  have hb : buildIndexFrom [] [([107], 0)] 0 = .ok [([107], 0)] :=
    buildIndexFrom_none _ _ _ (fs_eval_none _ _ (by simp))
  unfold openWith
  rw [hb]
  rfl

/-- C6 (amended): when `get(k)` raises `InvalidOffset` because a record was
decoded at the indexed offset but its payload key differs from `k`, the entry
is evicted before the error surfaces and an immediate retry fails with
`KeyNotFound`; but when `_load_record_at` finds no record at the offset
(clean end of stream), `get` raises `InvalidOffset` without evicting, and the
retry raises `InvalidOffset` again. -/
theorem C6_selfheal (s : AppendOnlyLogStorage) (k : Bytes) (off : Nat)
    (hfind : Index.find s.index k = some off) :
    (AppendOnlyLogStorage.load_record_at s.file off = .error (.invalidOffset off) →
      (s.get k).1 = .error (.invalidOffset off) ∧ (s.get k).2 = s ∧
      ((s.get k).2.get k).1 = .error (.invalidOffset off)) ∧
    (∀ r, AppendOnlyLogStorage.load_record_at s.file off = .ok r → r.payload.key ≠ k →
      (s.get k).1 = .error (.invalidOffset off) ∧
      (s.get k).2.index = Index.delete s.index k ∧
      ((s.get k).2.get k).1 = .error (.keyNotFound k)) := by
  constructor
  · intro hload
    have hget : s.get k = (.error (.invalidOffset off), s) := by
      simp only [AppendOnlyLogStorage.get, hfind, hload]
    rw [hget]
    exact ⟨rfl, rfl, by rw [hget]⟩
  · intro r hload hne
    have hget : s.get k = (.error (.invalidOffset off), ⟨s.file, Index.delete s.index k⟩) := by
      simp only [AppendOnlyLogStorage.get, hfind, hload, if_neg hne]
    rw [hget]
    refine ⟨rfl, rfl, ?_⟩
    have hgone : Index.find (Index.delete s.index k) k = none := find_delete_self _ _
    simp only [AppendOnlyLogStorage.get, hgone]

/-- C6 witness: the mismatch path at a concrete state — a `SET` record for
key `[1]` at offset 0 while the index maps key `[2]` there: the entry is
evicted and the retry fails with `KeyNotFound`. -/
theorem C6_witness :
    Index.find ([([2], 0)] : Index) [2] = some 0 ∧
    ((AppendOnlyLogStorage.mk (mkRecord .SET [1] []).to_bytes [([2], 0)]).get [2]).1 =
      .error (.invalidOffset 0) ∧
    ((((AppendOnlyLogStorage.mk (mkRecord .SET [1] []).to_bytes [([2], 0)]).get [2]).2).get
      [2]).1 = .error (.keyNotFound [2]) := by
  have h := C6_selfheal ⟨(mkRecord .SET [1] []).to_bytes, [([2], 0)]⟩ [2] 0 rfl
  have h2 := h.2 (mkRecord .SET [1] []) rfl (by decide)
  exact ⟨rfl, h2.1, h2.2.2⟩

/-- C7: the claim states that a `DELETE` record decoded at the indexed offset
triggers the `InvalidOffset` self-heal even when its payload key equals the
requested key.  Counterexample: `get` compares only payload keys and never
inspects the operation tag, so with the log holding exactly one `DELETE`
record for key `[107]` and the index pointing key `[107]` at it, `get([107])`
returns the record's (empty) value instead of failing. -/
theorem C7_counterexample :
    ((AppendOnlyLogStorage.mk (mkRecord .DELETE [107] []).to_bytes [([107], 0)]).get
      [107]).1 = .ok ([] : Bytes) := by
  rfl

/-- C7 (amended): the self-heal triggers only on a payload-key mismatch: for
every record decoded at the indexed offset whose payload key equals the
requested key — `DELETE` records included — `get` returns that record's
payload value and leaves the state unchanged, rather than failing with
`InvalidOffset`. -/
theorem C7_key_match_returns_value (s : AppendOnlyLogStorage) (k : Bytes) (off : Nat)
    (r : AppendOnlyLogRecord)
    (hfind : Index.find s.index k = some off)
    (hload : AppendOnlyLogStorage.load_record_at s.file off = .ok r)
    (hkey : r.payload.key = k) :
    s.get k = (.ok r.payload.value, s) := by
  simp only [AppendOnlyLogStorage.get, hfind, hload, if_pos hkey]

/-- C7 witness: the amended behaviour at the concrete `DELETE`-record
state. -/
theorem C7_witness :
    Index.find ([([107], 0)] : Index) [107] = some 0 ∧
    AppendOnlyLogStorage.load_record_at (mkRecord .DELETE [107] []).to_bytes 0 =
      .ok (mkRecord .DELETE [107] []) ∧
    (mkRecord .DELETE [107] []).payload.key = [107] ∧
    (AppendOnlyLogStorage.mk (mkRecord .DELETE [107] []).to_bytes [([107], 0)]).get [107] =
      (.ok ([] : Bytes), ⟨(mkRecord .DELETE [107] []).to_bytes, [([107], 0)]⟩) :=
  ⟨rfl, rfl, rfl,
    C7_key_match_returns_value ⟨(mkRecord .DELETE [107] []).to_bytes, [([107], 0)]⟩
      [107] 0 (mkRecord .DELETE [107] []) rfl rfl rfl⟩

/-- C8: for every mutation the in-memory index is updated only after the
append succeeds: a `set` whose append raises leaves the index exactly as it
was (whatever partial bytes reached the file), a `delete` whose append raises
likewise leaves the index unchanged, `delete` on an absent key never touches
the log or errors, and on success the operations perform exactly their
append-then-update step. -/
theorem C8_index_updated_after_append (s : AppendOnlyLogStorage) (k v tb : Bytes) :
    (s.setWith k v (.torn tb)).1 = .error .ioError ∧
    (s.setWith k v (.torn tb)).2.index = s.index ∧
    (s.deleteWith k (.torn tb)).2.index = s.index ∧
    (s.deleteWith k (.torn tb)).1 =
      (if Index.has s.index k then .error .ioError else .ok ()) ∧
    (s.setWith k v .success).2 = s.set k v ∧
    (s.deleteWith k .success).2 = s.delete k := by
  refine ⟨rfl, rfl, ?_, ?_, rfl, ?_⟩
  · unfold AppendOnlyLogStorage.deleteWith
    by_cases h : Index.has s.index k <;> simp [h]
  · unfold AppendOnlyLogStorage.deleteWith
    by_cases h : Index.has s.index k <;> simp [h]
  · unfold AppendOnlyLogStorage.deleteWith AppendOnlyLogStorage.delete
    by_cases h : Index.has s.index k <;> simp [h]

/-- C9: the log file never shrinks under any operation or append outcome; a
successful `set`, or a successful `delete` of a present key, strictly grows
it; `delete` of an absent key succeeds and writes nothing regardless of the
I/O outcome; and `get` leaves the file untouched. -/
theorem C9_monotonic_growth (s : AppendOnlyLogStorage) (k v tb : Bytes) :
    s.file.length < ((s.setWith k v .success).2).file.length ∧
    s.file.length ≤ ((s.setWith k v (.torn tb)).2).file.length ∧
    s.file.length ≤ ((s.deleteWith k (.torn tb)).2).file.length ∧
    (if Index.has s.index k then
      s.file.length < ((s.deleteWith k .success).2).file.length
    else
      (∀ oc, (s.deleteWith k oc).2 = s ∧ (s.deleteWith k oc).1 = .ok ())) ∧
    ((s.get k).2).file = s.file := by
  refine ⟨?_, ?_, ?_, ?_, get_file_frame s k⟩
  · simp [AppendOnlyLogStorage.setWith, AppendOnlyLogStorage.set, mkRecord_to_bytes_length,
      STRUCT_size]
  · simp [AppendOnlyLogStorage.setWith]
  · unfold AppendOnlyLogStorage.deleteWith
    by_cases h : Index.has s.index k <;> simp [h]
  · by_cases h : Index.has s.index k
    · rw [if_pos h]
      simp [AppendOnlyLogStorage.deleteWith, h, mkRecord_to_bytes_length, STRUCT_size]
    · rw [if_neg h]
      intro oc
      simp [AppendOnlyLogStorage.deleteWith, h]

/-- C10: `get` never changes the log file's bytes, whatever its outcome; the
self-heal eviction mutates only the in-memory index. -/
theorem C10_get_frame (s : AppendOnlyLogStorage) (k : Bytes) :
    ((s.get k).2).file = s.file :=
  get_file_frame s k

end MyDB
